import Mathlib

/-!
Verification of the `ppi` repository's network-assembly and statistical
enrichment engine against its specification.

The Python source is shallowly embedded: keyed p-value mappings become
association lists over `ℚ`, the protein-protein interaction graph becomes an
explicit structure of nodes and edges with attribute association lists, and
Python's stable `sorted` becomes `List.insertionSort` (any stable sort by the
same key computes the same list).
-/

namespace PPI

/-! ### Multiple testing correction (`diana/analysis/correction.py`) -/

/-- The comparison key of `sorted(..., key=lambda item: item[1])`:
compare keyed p-values by their p-value. -/
abbrev byP {K : Type} (a b : K × ℚ) : Prop := a.2 ≤ b.2

instance {K : Type} : DecidableRel (byP (K := K)) :=
  fun a b => inferInstanceAs (Decidable (a.2 ≤ b.2))

instance {K : Type} : IsTotal (K × ℚ) byP := ⟨fun a b => le_total a.2 b.2⟩

instance {K : Type} : IsTrans (K × ℚ) byP := ⟨fun _ _ _ h h' => le_trans h h'⟩

/-- `sorted([list(item) for item in p_values.items()], key=lambda item: item[1])`:
Python's `sorted` is a stable sort, hence equal to stable insertion sort. -/
def sortByP {K : Type} (l : List (K × ℚ)) : List (K × ℚ) :=
  List.insertionSort byP l

/-- The monotonicity loop of `benjamini_hochberg`
(`for i in range(m - 1, 0, -1): ...`), written as a right-to-left scan.
The argument `i` is the 0-based index of the head of the remaining list;
the head at index `i` is compared with the already-updated element at
index `i + 1` (`y'`), exactly as the in-place loop reads
`sorted_p_values[i]` after having processed it:
`if sorted_p_values[i - 1][1] / i > sorted_p_values[i][1] / (i + 1):
   sorted_p_values[i - 1][1] = sorted_p_values[i][1] * i / (i + 1)`. -/
def bhLoop {K : Type} : ℕ → List (K × ℚ) → List (K × ℚ)
  | _, [] => []
  | _, [x] => [x]
  | i, x :: y :: rest =>
    let t := bhLoop (i + 1) (y :: rest)
    let y' := t.head?.getD y
    (if x.2 / ((i : ℚ) + 1) > y'.2 / ((i : ℚ) + 2) then
      (x.1, y'.2 * ((i : ℚ) + 1) / ((i : ℚ) + 2))
    else x) :: t

/-- The final comprehension of `benjamini_hochberg`:
`{key: min(m * p_value / i, 1.0) for i, (key, p_value) in
  enumerate(sorted_p_values, start=1)}`, with `i` the 1-based rank. -/
def bhFinal {K : Type} (m : ℕ) : ℕ → List (K × ℚ) → List (K × ℚ)
  | _, [] => []
  | i, kp :: rest =>
    (kp.1, min ((m : ℚ) * kp.2 / (i : ℚ)) 1) :: bhFinal m (i + 1) rest

/-- `benjamini_hochberg` (`diana/analysis/correction.py`): Benjamini-Hochberg
procedure for multiple testing correction over a keyed p-value mapping,
embedded as an association list. -/
def benjamini_hochberg {K : Type} (l : List (K × ℚ)) : List (K × ℚ) :=
  bhFinal l.length 1 (bhLoop 0 (sortByP l))

/-- `bonferroni` (`diana/analysis/correction.py`):
`{key: min(m * p_value, 1.0) for key, p_value in p_values.items()}`. -/
def bonferroni {K : Type} (l : List (K × ℚ)) : List (K × ℚ) :=
  l.map fun kp => (kp.1, min ((l.length : ℚ) * kp.2) 1)

/-- The monotonicity pass as the specification words it: replace
`sorted[i-1].p` by `min(sorted[i-1].p, sorted[i].p * i / (i+1))`. -/
def bhLoopClaimed {K : Type} : ℕ → List (K × ℚ) → List (K × ℚ)
  | _, [] => []
  | _, [x] => [x]
  | i, x :: y :: rest =>
    let t := bhLoopClaimed (i + 1) (y :: rest)
    let y' := t.head?.getD y
    (x.1, min x.2 (y'.2 * ((i : ℚ) + 1) / ((i : ℚ) + 2))) :: t

/-- The Benjamini-Hochberg procedure exactly as the specification describes
it: sort ascending by p, take the explicit-`min` monotonicity pass, then
assign rank-`i` entries `min(m * p / i, 1.0)`. -/
def benjamini_hochberg_claimed {K : Type} (l : List (K × ℚ)) : List (K × ℚ) :=
  bhFinal l.length 1 (bhLoopClaimed 0 (sortByP l))

theorem bhLoop_eq_claimed {K : Type} :
    ∀ (i : ℕ) (l : List (K × ℚ)), bhLoop i l = bhLoopClaimed i l := by
  intro i l
  induction l generalizing i with
  | nil => rfl
  | cons x t ih =>
    cases t with
    | nil => rfl
    | cons y rest =>
      simp only [bhLoop, bhLoopClaimed, ih (i + 1)]
      congr 1
      set y' := (bhLoopClaimed (i + 1) (y :: rest)).head?.getD y with hy'
      have hpos1 : (0 : ℚ) < (i : ℚ) + 1 := by positivity
      have hpos2 : (0 : ℚ) < (i : ℚ) + 2 := by positivity
      have hiff : x.2 / ((i : ℚ) + 1) > y'.2 / ((i : ℚ) + 2) ↔
          y'.2 * ((i : ℚ) + 1) / ((i : ℚ) + 2) < x.2 := by
        rw [gt_iff_lt, div_lt_div_iff₀ hpos2 hpos1, div_lt_iff₀ hpos2]
      by_cases h : x.2 / ((i : ℚ) + 1) > y'.2 / ((i : ℚ) + 2)
      · rw [if_pos h]
        have := hiff.mp h
        rw [min_eq_right (le_of_lt this)]
      · rw [if_neg h]
        have : ¬ (y'.2 * ((i : ℚ) + 1) / ((i : ℚ) + 2) < x.2) := fun hc => h (hiff.mpr hc)
        rw [min_eq_left (not_lt.mp this)]

/-- C1: `benjamini_hochberg` returns the mapping obtained by sorting
entries ascending by p-value, running the downward monotonicity pass
`sorted[i-1].p := min(sorted[i-1].p, sorted[i].p * i/(i+1))`, and assigning
each entry of 1-based rank `i` the adjusted value `min(m * p / i, 1.0)`. -/
theorem benjamini_hochberg_eq_claimed {K : Type} (l : List (K × ℚ)) :
    benjamini_hochberg l = benjamini_hochberg_claimed l := by
  unfold benjamini_hochberg benjamini_hochberg_claimed
  rw [bhLoop_eq_claimed]

theorem bhFinal_length {K : Type} (m i : ℕ) (z : List (K × ℚ)) :
    (bhFinal m i z).length = z.length := by
  induction z generalizing i with
  | nil => rfl
  | cons a t ih => simp [bhFinal, ih]

theorem bhLoopClaimed_length {K : Type} (i : ℕ) (z : List (K × ℚ)) :
    (bhLoopClaimed i z).length = z.length := by
  induction z generalizing i with
  | nil => rfl
  | cons x t ih =>
    cases t with
    | nil => rfl
    | cons y rest => simp [bhLoopClaimed, ih (i + 1)]

theorem bhFinal_map_fst {K : Type} (m i : ℕ) (z : List (K × ℚ)) :
    (bhFinal m i z).map Prod.fst = z.map Prod.fst := by
  induction z generalizing i with
  | nil => rfl
  | cons a t ih => simp [bhFinal, ih]

theorem bhLoopClaimed_map_fst {K : Type} (i : ℕ) (z : List (K × ℚ)) :
    (bhLoopClaimed i z).map Prod.fst = z.map Prod.fst := by
  induction z generalizing i with
  | nil => rfl
  | cons x t ih =>
    cases t with
    | nil => rfl
    | cons y rest => simp [bhLoopClaimed, ih (i + 1)]

theorem bhFinal_getElem? {K : Type} (m i j : ℕ) (z : List (K × ℚ)) :
    (bhFinal m i z)[j]? =
      z[j]?.map fun kp => (kp.1, min ((m : ℚ) * kp.2 / ((i + j : ℕ) : ℚ)) 1) := by
  induction z generalizing i j with
  | nil => simp [bhFinal]
  | cons a t ih =>
    cases j with
    | zero => simp [bhFinal]
    | succ j =>
      simp only [bhFinal, List.getElem?_cons_succ, ih (i + 1) j]
      have : i + 1 + j = i + (j + 1) := by omega
      rw [this]

theorem bhLoopClaimed_cons_cons {K : Type} (i : ℕ) (x y : K × ℚ)
    (rest : List (K × ℚ)) :
    bhLoopClaimed i (x :: y :: rest) =
      (x.1, min x.2
        (((bhLoopClaimed (i + 1) (y :: rest)).head?.getD y).2 *
          ((i : ℚ) + 1) / ((i : ℚ) + 2))) :: bhLoopClaimed (i + 1) (y :: rest) :=
  rfl

theorem bhLoopClaimed_head {K : Type} (i : ℕ) (y : K × ℚ) (rest : List (K × ℚ)) :
    (bhLoopClaimed i (y :: rest))[0]? =
      some ((bhLoopClaimed i (y :: rest)).head?.getD y) := by
  cases h : bhLoopClaimed i (y :: rest) with
  | nil =>
    have := bhLoopClaimed_length i (y :: rest)
    rw [h] at this
    simp at this
  | cons c t => simp

/-- Adjacent elements of the monotonicity pass: the updated value at index
`j` is at most the updated value at index `j + 1` times `(g+1)/(g+2)` for
the global index `g = i + j`. -/
theorem bhLoopClaimed_adjacent {K : Type} :
    ∀ (i : ℕ) (z : List (K × ℚ)) (j : ℕ) (a b : K × ℚ),
      (bhLoopClaimed i z)[j]? = some a → (bhLoopClaimed i z)[j + 1]? = some b →
      a.2 ≤ b.2 * (((i + j : ℕ) : ℚ) + 1) / (((i + j : ℕ) : ℚ) + 2) := by
  intro i z
  induction z generalizing i with
  | nil => intro j a b ha; simp [bhLoopClaimed] at ha
  | cons x t ih =>
    cases t with
    | nil => intro j a b ha hb; cases j <;> simp [bhLoopClaimed] at ha hb
    | cons y rest =>
      intro j a b ha hb
      rw [bhLoopClaimed_cons_cons] at ha hb
      cases j with
      | zero =>
        simp only [List.getElem?_cons_zero, Option.some.injEq] at ha
        rw [List.getElem?_cons_succ] at hb
        rw [bhLoopClaimed_head] at hb
        have hb' := Option.some.inj hb
        subst ha
        rw [← hb']
        simp
      | succ j =>
        rw [List.getElem?_cons_succ] at ha hb
        have := ih (i + 1) j a b ha hb
        have harith : i + 1 + j = i + (j + 1) := by omega
        rwa [harith] at this

/-- Lower bound on the monotonicity pass: if the input slice starting at
global index `i` is ascending with nonnegative values, then the updated
value at index `j` satisfies `p[j] * (g+1) ≤ m * p'[j]` for the global rank
`g + 1 = i + j + 1` and `m = i + length`. -/
theorem bhLoopClaimed_lower {K : Type} :
    ∀ (i : ℕ) (z : List (K × ℚ)),
      (∀ (j : ℕ) (a b : K × ℚ), z[j]? = some a → z[j + 1]? = some b → a.2 ≤ b.2) →
      (∀ kp ∈ z, 0 ≤ kp.2) →
      ∀ (j : ℕ) (a a' : K × ℚ), z[j]? = some a → (bhLoopClaimed i z)[j]? = some a' →
        a.2 * (((i + j : ℕ) : ℚ) + 1) ≤ ((i + z.length : ℕ) : ℚ) * a'.2 := by
  intro i z
  induction z generalizing i with
  | nil => intro _ _ j a a' ha; simp at ha
  | cons x t ih =>
    cases t with
    | nil =>
      intro _ hnn j a a' ha ha'
      cases j with
      | zero =>
        simp only [List.getElem?_cons_zero, Option.some.injEq] at ha
        simp only [bhLoopClaimed, List.getElem?_cons_zero, Option.some.injEq] at ha'
        subst ha; subst ha'
        simp only [List.length_cons, List.length_nil]
        push_cast
        ring_nf
        exact le_refl _
      | succ j => simp [bhLoopClaimed] at ha'
    | cons y rest =>
      intro hch hnn j a a' ha ha'
      rw [bhLoopClaimed_cons_cons] at ha'
      have hchT : ∀ (j : ℕ) (a b : K × ℚ),
          (y :: rest)[j]? = some a → (y :: rest)[j + 1]? = some b → a.2 ≤ b.2 := by
        intro j a b h1 h2
        exact hch (j + 1) a b (by simpa using h1) (by simpa using h2)
      have hnnT : ∀ kp ∈ (y :: rest), 0 ≤ kp.2 := fun kp h => hnn kp (List.mem_cons_of_mem _ h)
      cases j with
      | zero =>
        simp only [List.getElem?_cons_zero, Option.some.injEq] at ha ha'
        subst ha
        set y' := (bhLoopClaimed (i + 1) (y :: rest)).head?.getD y with hy'
        have hIH0 : y.2 * (((i + 1 + 0 : ℕ) : ℚ) + 1) ≤
            (((i + 1) + (y :: rest).length : ℕ) : ℚ) * y'.2 :=
          ih (i + 1) hchT hnnT 0 y y' (by simp) (bhLoopClaimed_head (i + 1) y rest)
        have hxy : x.2 ≤ y.2 := hch 0 x y (by simp) (by simp)
        have hx0 : 0 ≤ x.2 := hnn x (List.mem_cons_self _ _)
        have hy0 : 0 ≤ y.2 := hnn y (List.mem_cons_of_mem _ (List.mem_cons_self _ _))
        rw [← ha']
        simp only [List.length_cons]
        have hmlen : ((i + (rest.length + 1 + 1) : ℕ) : ℚ) = (i : ℚ) + (rest.length : ℚ) + 2 := by
          push_cast; ring
        have hmlen' : (((i + 1) + (rest.length + 1) : ℕ) : ℚ) =
            (i : ℚ) + (rest.length : ℚ) + 2 := by
          push_cast; ring
        set m : ℚ := (i : ℚ) + (rest.length : ℚ) + 2 with hm
        rw [hmlen]
        simp only [List.length_cons] at hIH0
        rw [hmlen'] at hIH0
        push_cast at hIH0 ⊢
        have hpos2 : (0 : ℚ) < (i : ℚ) + 2 := by positivity
        have hmge : ((i : ℚ) + 1) ≤ m := by
          rw [hm]
          have : (0 : ℚ) ≤ (rest.length : ℚ) := by positivity
          linarith
        have hm0 : (0 : ℚ) ≤ m := by
          have : (0 : ℚ) ≤ (i : ℚ) := by positivity
          have : (0 : ℚ) ≤ (rest.length : ℚ) := by positivity
          rw [hm]; positivity
        rcases min_choice x.2 (y'.2 * ((i : ℚ) + 1) / ((i : ℚ) + 2)) with hmin | hmin <;>
          rw [hmin]
        · calc x.2 * ((i : ℚ) + 0 + 1) = x.2 * ((i : ℚ) + 1) := by ring
            _ ≤ x.2 * m := mul_le_mul_of_nonneg_left hmge hx0
            _ = m * x.2 := mul_comm _ _
        · have hexp : m * (y'.2 * ((i : ℚ) + 1) / ((i : ℚ) + 2)) =
              m * y'.2 * ((i : ℚ) + 1) / ((i : ℚ) + 2) := by ring
          rw [hexp, le_div_iff₀ hpos2]
          have h1 : y.2 * ((i : ℚ) + 2) ≤ m * y'.2 := by
            have : ((i : ℚ) + 1 + 0 + 1) = (i : ℚ) + 2 := by ring
            linarith [hIH0]
          have hi1 : (0 : ℚ) ≤ (i : ℚ) + 1 := by positivity
          nlinarith [mul_le_mul_of_nonneg_right h1 hi1,
            mul_le_mul_of_nonneg_right hxy (mul_pos (by positivity : (0:ℚ) < (i:ℚ)+1) hpos2).le]
      | succ j =>
        rw [List.getElem?_cons_succ] at ha ha'
        have := ih (i + 1) hchT hnnT j a a' ha ha'
        have h1 : i + 1 + j = i + (j + 1) := by omega
        have h2 : i + 1 + (y :: rest).length = i + (x :: y :: rest).length := by
          simp; omega
        rwa [h1, h2] at this

theorem sorted_adjacent {K : Type} {z : List (K × ℚ)} (h : z.Sorted byP) :
    ∀ (j : ℕ) (a b : K × ℚ), z[j]? = some a → z[j + 1]? = some b → a.2 ≤ b.2 := by
  intro j a b ha hb
  obtain ⟨h1, e1⟩ := List.getElem?_eq_some.mp ha
  obtain ⟨h2, e2⟩ := List.getElem?_eq_some.mp hb
  have := h.rel_get_of_lt (a := ⟨j, h1⟩) (b := ⟨j + 1, h2⟩) (by simp)
  simp only [List.get_eq_getElem] at this
  rw [e1, e2] at this
  exact this

/-- C2: contract of both correction procedures: the output has exactly the
input's keys, every adjusted p-value at a rank is at least the raw p-value
of that rank and at most 1, and sorting raws ascending gives non-decreasing
adjusted values (rank order is never inverted), for `benjamini_hochberg`
(whose output is listed in ascending raw order) and for `bonferroni`. -/
theorem correction_contract {K : Type} (l : List (K × ℚ))
    (hp : ∀ kp ∈ l, 0 ≤ kp.2 ∧ kp.2 ≤ 1) :
    ((benjamini_hochberg l).map Prod.fst).Perm (l.map Prod.fst) ∧
    (benjamini_hochberg l).length = l.length ∧
    (sortByP l).Sorted byP ∧
    (∀ (j : ℕ) (kp kq : K × ℚ), (sortByP l)[j]? = some kp →
      (benjamini_hochberg l)[j]? = some kq →
      kq.1 = kp.1 ∧ kp.2 ≤ kq.2 ∧ kq.2 ≤ 1) ∧
    (∀ (j : ℕ) (kq kq' : K × ℚ), (benjamini_hochberg l)[j]? = some kq →
      (benjamini_hochberg l)[j + 1]? = some kq' → kq.2 ≤ kq'.2) ∧
    ((bonferroni l).map Prod.fst = l.map Prod.fst) ∧
    (∀ (j : ℕ) (kp kq : K × ℚ), l[j]? = some kp → (bonferroni l)[j]? = some kq →
      kq.1 = kp.1 ∧ kp.2 ≤ kq.2 ∧ kq.2 ≤ 1) ∧
    (∀ (j j' : ℕ) (kp kp' kq kq' : K × ℚ), l[j]? = some kp → l[j']? = some kp' →
      (bonferroni l)[j]? = some kq → (bonferroni l)[j']? = some kq' →
      kp.2 ≤ kp'.2 → kq.2 ≤ kq'.2) := by
  have hsorted : (sortByP l).Sorted byP := List.sorted_insertionSort byP l
  have hperm : (sortByP l).Perm l := List.perm_insertionSort byP l
  have hslen : (sortByP l).length = l.length := hperm.length_eq
  have hmem : ∀ kp ∈ sortByP l, 0 ≤ kp.2 ∧ kp.2 ≤ 1 :=
    fun kp h => hp kp (hperm.mem_iff.mp h)
  have hch := sorted_adjacent hsorted
  have hnn : ∀ kp ∈ sortByP l, 0 ≤ kp.2 := fun kp h => (hmem kp h).1
  have hbh : ∀ (j : ℕ), (benjamini_hochberg l)[j]? =
      (bhLoopClaimed 0 (sortByP l))[j]?.map
        (fun kp => (kp.1, min ((l.length : ℚ) * kp.2 / ((1 + j : ℕ) : ℚ)) 1)) := by
    intro j
    unfold benjamini_hochberg
    rw [bhLoop_eq_claimed, bhFinal_getElem?]
  have hLfst : ∀ (j : ℕ) (a : K × ℚ), (bhLoopClaimed 0 (sortByP l))[j]? = some a →
      (sortByP l)[j]?.map Prod.fst = some a.1 := by
    intro j a ha
    have := congrArg (fun z => z[j]?) (bhLoopClaimed_map_fst 0 (sortByP l))
    simp only [List.getElem?_map] at this
    rw [← this, ha]
    rfl
  have hm0 : (0 : ℚ) ≤ (l.length : ℚ) := by positivity
  refine ⟨?_, ?_, hsorted, ?_, ?_, ?_, ?_, ?_⟩
  · have : (benjamini_hochberg l).map Prod.fst = (sortByP l).map Prod.fst := by
      unfold benjamini_hochberg
      rw [bhLoop_eq_claimed, bhFinal_map_fst, bhLoopClaimed_map_fst]
    rw [this]
    exact hperm.map Prod.fst
  · unfold benjamini_hochberg
    rw [bhFinal_length, bhLoop_eq_claimed, bhLoopClaimed_length, hslen]
  · intro j kp kq hkp hkq
    rw [hbh j] at hkq
    obtain ⟨a, ha, hfa⟩ := Option.map_eq_some'.mp hkq
    have hfst : kq.1 = kp.1 := by
      have := hLfst j a ha
      rw [hkp] at this
      have : a.1 = kp.1 := by simpa using this.symm
      rw [← hfa, ← this]
    refine ⟨hfst, ?_, ?_⟩
    · have hlow := bhLoopClaimed_lower 0 (sortByP l) hch hnn j kp a hkp ha
      rw [← hfa]
      simp only
      refine le_min ?_ (hp kp (hperm.mem_iff.mp ?_)).2
      · have hpos : (0 : ℚ) < ((1 + j : ℕ) : ℚ) := by positivity
        rw [le_div_iff₀ hpos]
        rw [hslen] at hlow
        push_cast at hlow ⊢
        linarith
      · obtain ⟨hb, e⟩ := List.getElem?_eq_some.mp hkp
        exact e ▸ List.getElem_mem hb
    · rw [← hfa]
      exact min_le_right _ _
  · intro j kq kq' h1 h2
    rw [hbh j] at h1
    rw [hbh (j + 1)] at h2
    obtain ⟨a, ha, hfa⟩ := Option.map_eq_some'.mp h1
    obtain ⟨b, hb, hfb⟩ := Option.map_eq_some'.mp h2
    have hadj := bhLoopClaimed_adjacent 0 (sortByP l) j a b ha hb
    rw [← hfa, ← hfb]
    simp only
    refine min_le_min ?_ (le_refl 1)
    have hj1 : (0 : ℚ) < ((1 + j : ℕ) : ℚ) := by positivity
    have hj2 : (0 : ℚ) < ((1 + (j + 1) : ℕ) : ℚ) := by positivity
    rw [div_le_div_iff₀ hj1 hj2]
    simp only [Nat.zero_add] at hadj
    have hpos2 : (0 : ℚ) < (j : ℚ) + 2 := by positivity
    rw [le_div_iff₀ hpos2] at hadj
    push_cast
    nlinarith [mul_le_mul_of_nonneg_left hadj hm0]
  · unfold bonferroni
    rw [List.map_map]
    rfl
  · intro j kp kq hkp hkq
    unfold bonferroni at hkq
    rw [List.getElem?_map, hkp] at hkq
    have hkq' : kq = (kp.1, min ((l.length : ℚ) * kp.2) 1) := by
      simpa using hkq.symm
    obtain ⟨hb, e⟩ := List.getElem?_eq_some.mp hkp
    have hmem' : kp ∈ l := e ▸ List.getElem_mem hb
    have h1 : (1 : ℚ) ≤ (l.length : ℚ) := by
      have : 1 ≤ l.length := by omega
      exact_mod_cast this
    refine ⟨by rw [hkq'], ?_, by rw [hkq']; exact min_le_right _ _⟩
    rw [hkq']
    refine le_min ?_ (hp kp hmem').2
    calc kp.2 = 1 * kp.2 := (one_mul _).symm
      _ ≤ (l.length : ℚ) * kp.2 := mul_le_mul_of_nonneg_right h1 (hp kp hmem').1
  · intro j j' kp kp' kq kq' hkp hkp' hkq hkq' hle
    unfold bonferroni at hkq hkq'
    rw [List.getElem?_map, hkp] at hkq
    rw [List.getElem?_map, hkp'] at hkq'
    have e1 : kq = (kp.1, min ((l.length : ℚ) * kp.2) 1) := by simpa using hkq.symm
    have e2 : kq' = (kp'.1, min ((l.length : ℚ) * kp'.2) 1) := by simpa using hkq'.symm
    rw [e1, e2]
    exact min_le_min (mul_le_mul_of_nonneg_left hle hm0) (le_refl 1)

/-- C2 witness: the contract instantiated at a concrete two-entry mapping. -/
theorem correction_contract_witness :
    (∀ kp ∈ [((0 : ℕ), (0 : ℚ)), (1, 1)], 0 ≤ kp.2 ∧ kp.2 ≤ 1) ∧
    (((benjamini_hochberg [((0 : ℕ), (0 : ℚ)), (1, 1)]).map Prod.fst).Perm
      ([((0 : ℕ), (0 : ℚ)), (1, 1)].map Prod.fst)) ∧
    (benjamini_hochberg [((0 : ℕ), (0 : ℚ)), (1, 1)]).length = 2 := by
  have h := correction_contract [((0 : ℕ), (0 : ℚ)), (1, 1)] (by decide)
  exact ⟨by decide, h.1, h.2.1⟩

/-- The harmonic-sum correction factor `Σ(1/i for i=1..m)` of the
Benjamini-Yekutieli procedure. -/
def harmonic_sum (m : ℕ) : ℚ := ∑ i ∈ Finset.range m, 1 / ((i : ℚ) + 1)

/-- The final assignment of the Benjamini-Yekutieli procedure: as the
Benjamini-Hochberg final assignment, but scaled by the harmonic-sum factor
before the final division by the rank and the clamp at 1. -/
def byFinal {K : Type} (m : ℕ) : ℕ → List (K × ℚ) → List (K × ℚ)
  | _, [] => []
  | i, kp :: rest =>
    (kp.1, min (harmonic_sum m * (m : ℚ) * kp.2 / (i : ℚ)) 1) :: byFinal m (i + 1) rest

/-- Modelled from the spec: the `interface.correction` module imported by
`diana/diana.py` is not part of the sources at hand; per the specification
Benjamini-Yekutieli is "as BH but scaled by the harmonic-sum correction
factor Σ(1/i for i=1..m) before the final division", applied consistently
with the BH monotonicity pass. -/
def benjamini_yekutieli {K : Type} (l : List (K × ℚ)) : List (K × ℚ) :=
  byFinal l.length 1 (bhLoop 0 (sortByP l))

/-- Modelled from the spec: the `CORRECTION` mapping of configuration names
to correction procedures (Bonferroni, Benjamini-Hochberg,
Benjamini-Yekutieli), from the `interface.correction` module that is not
part of the sources at hand. -/
def CORRECTION (K : Type) : String → Option (List (K × ℚ) → List (K × ℚ)) :=
  fun name =>
    if name = "Benjamini-Hochberg" then some benjamini_hochberg
    else if name = "Benjamini-Yekutieli" then some benjamini_yekutieli
    else if name = "Bonferroni" then some bonferroni
    else none

/-- `configuration["Gene Ontology network"].get("correction",
"Benjamini-Yekutieli")` in `diana/diana.py`: the correction name used when
the workflow configuration names no correction. -/
def workflow_correction_name (configured : Option String) : String :=
  configured.getD "Benjamini-Yekutieli"

theorem byFinal_getElem? {K : Type} (m i j : ℕ) (z : List (K × ℚ)) :
    (byFinal m i z)[j]? =
      z[j]?.map fun kp =>
        (kp.1, min (harmonic_sum m * (m : ℚ) * kp.2 / ((i + j : ℕ) : ℚ)) 1) := by
  induction z generalizing i j with
  | nil => simp [byFinal]
  | cons a t ih =>
    cases j with
    | zero => simp [byFinal]
    | succ j =>
      simp only [byFinal, List.getElem?_cons_succ, ih (i + 1) j]
      have : i + 1 + j = i + (j + 1) := by omega
      rw [this]

/-- C3: the system provides a Benjamini-Yekutieli procedure: it is the
procedure the `CORRECTION` mapping yields for the default correction name
of a workflow configuration that names no correction; it is distinct from
`benjamini_hochberg`; and its value at every rank is the harmonic-sum-scaled
BH adjustment `min(c_m * m * p / rank, 1)` computed on the output of the
same BH monotonicity pass `bhLoop`. -/
theorem benjamini_yekutieli_default_and_scaled :
    (CORRECTION ℕ (workflow_correction_name none) = some benjamini_yekutieli) ∧
    (benjamini_yekutieli [((0 : ℕ), (1 : ℚ)/4), (1, 1/4)] ≠
      benjamini_hochberg [((0 : ℕ), (1 : ℚ)/4), (1, 1/4)]) ∧
    (∀ (l : List (ℕ × ℚ)) (j : ℕ) (a : ℕ × ℚ),
      (bhLoop 0 (sortByP l))[j]? = some a →
      (benjamini_yekutieli l)[j]? =
        some (a.1, min (harmonic_sum l.length * (l.length : ℚ) * a.2 /
          ((1 + j : ℕ) : ℚ)) 1)) := by
  refine ⟨?_, ?_, ?_⟩
  · simp [CORRECTION, workflow_correction_name]
  · have hs : sortByP [((0 : ℕ), (1 : ℚ)/4), (1, 1/4)] =
        [((0 : ℕ), (1 : ℚ)/4), (1, 1/4)] := by
      norm_num [sortByP, byP, List.insertionSort, List.orderedInsert]
    have hl : bhLoop 0 [((0 : ℕ), (1 : ℚ)/4), (1, 1/4)] =
        [((0 : ℕ), (1 : ℚ)/8), (1, 1/4)] := by
      norm_num [bhLoop]
    have hby : benjamini_yekutieli [((0 : ℕ), (1 : ℚ)/4), (1, 1/4)] =
        [((0 : ℕ), (3 : ℚ)/8), (1, 3/8)] := by
      unfold benjamini_yekutieli
      rw [hs, hl]
      norm_num [byFinal, harmonic_sum, Finset.sum_range_succ]
    have hbh : benjamini_hochberg [((0 : ℕ), (1 : ℚ)/4), (1, 1/4)] =
        [((0 : ℕ), (1 : ℚ)/4), (1, 1/4)] := by
      unfold benjamini_hochberg
      rw [hs, hl]
      norm_num [bhFinal]
    rw [hby, hbh]
    intro h
    have := List.head_eq_of_cons_eq h
    simp at this
    norm_num at this
  · intro l j a ha
    unfold benjamini_yekutieli
    rw [byFinal_getElem?, ha]
    rfl

/-- C3 witness: the scaling equation instantiated at a concrete singleton
mapping and rank. -/
theorem benjamini_yekutieli_scaled_witness :
    ((bhLoop 0 (sortByP [((0 : ℕ), (0 : ℚ))]))[0]? = some ((0 : ℕ), (0 : ℚ))) ∧
    (benjamini_yekutieli [((0 : ℕ), (0 : ℚ))])[0]? =
      some ((0 : ℕ), min (harmonic_sum 1 * ((1 : ℕ) : ℚ) * 0 / ((1 + 0 : ℕ) : ℚ)) 1) := by
  refine ⟨by decide, ?_⟩
  have h := benjamini_yekutieli_default_and_scaled.2.2 [((0 : ℕ), (0 : ℚ))] 0
    ((0 : ℕ), (0 : ℚ)) (by decide)
  exact h

/-- C10: `benjamini_hochberg` is total on every finite mapping: the empty
mapping yields the empty mapping, a singleton `{k: p}` yields
`{k: min(p, 1.0)}`, and in general the output has exactly as many entries
as the input. -/
theorem benjamini_hochberg_total :
    (benjamini_hochberg ([] : List (ℕ × ℚ)) = []) ∧
    (∀ (k : ℕ) (p : ℚ), benjamini_hochberg [(k, p)] = [(k, min p 1)]) ∧
    (∀ (l : List (ℕ × ℚ)), (benjamini_hochberg l).length = l.length) := by
  refine ⟨rfl, ?_, ?_⟩
  · intro k p
    show bhFinal 1 1 (bhLoop 0 (sortByP [(k, p)])) = [(k, min p 1)]
    have hs : sortByP [(k, p)] = [(k, p)] := rfl
    rw [hs]
    show [(k, min ((1 : ℚ) * p / (1 : ℚ)) 1)] = [(k, min p 1)]
    norm_num
  · intro l
    have h1 : ∀ (m i : ℕ) (z : List (ℕ × ℚ)), (bhFinal m i z).length = z.length := by
      intro m i z
      induction z generalizing i with
      | nil => rfl
      | cons a t ih => simp [bhFinal, ih]
    have h2 : ∀ (i : ℕ) (z : List (ℕ × ℚ)), (bhLoop i z).length = z.length := by
      intro i z
      induction z generalizing i with
      | nil => rfl
      | cons x t ih =>
        cases t with
        | nil => rfl
        | cons y rest => simp [bhLoop, ih (i + 1)]
    unfold benjamini_hochberg
    rw [h1, h2]
    simp [sortByP]

/-! ### Enrichment test (`pipeline/networks/gene_ontology_network.py`) -/

/-- The hypergeometric survival function `P(X > x)` for population size `M`,
`n` marked elements and `N` draws, over `ℚ`: the mathematical definition of
`scipy.stats.hypergeom.sf(x, M, n, N)` used by `get_network`. -/
def hypergeom_sf (x : ℤ) (M n N : ℕ) : ℚ :=
  ∑ j ∈ (Finset.range (N + 1)).filter (fun (j : ℕ) => x < (j : ℤ)),
    ((n.choose j * (M - n).choose (N - j) : ℕ) : ℚ) / ((M.choose N : ℕ) : ℚ)

/-- The default `enrichment_test` of `get_network`
(`pipeline/networks/gene_ontology_network.py`):
`lambda k, M, n, N: scipy.stats.hypergeom.sf(k - 1, M, n, N)`, the one-sided
over-representation test `P(X ≥ k)`. -/
def enrichment_test (k M n N : ℕ) : ℚ := hypergeom_sf ((k : ℤ) - 1) M n N

/-- C6: the one-sided hypergeometric over-representation test at `k = 0`
(empty overlap) yields exactly `p = 1`, never an error. -/
theorem enrichment_test_zero_overlap (M n N : ℕ) (hn : n ≤ M) (hN : N ≤ M) :
    enrichment_test 0 M n N = 1 := by
  unfold enrichment_test hypergeom_sf
  have hfilter : (Finset.range (N + 1)).filter (fun (j : ℕ) => ((0 : ℕ) : ℤ) - 1 < (j : ℤ)) =
      Finset.range (N + 1) := by
    apply Finset.filter_true_of_mem
    intro j _
    have : (0 : ℤ) ≤ (j : ℤ) := Int.ofNat_nonneg j
    omega
  rw [hfilter, ← Finset.sum_div]
  have hv : ∑ j ∈ Finset.range (N + 1), (n.choose j * (M - n).choose (N - j)) =
      M.choose N := by
    have h := Nat.add_choose_eq n (M - n) N
    rw [Finset.Nat.sum_antidiagonal_eq_sum_range_succ_mk] at h
    rw [Nat.add_sub_cancel' hn] at h
    exact h.symm
  rw [← Nat.cast_sum, hv]
  have hpos : 0 < M.choose N := Nat.choose_pos hN
  have : ((M.choose N : ℕ) : ℚ) ≠ 0 := by exact_mod_cast Nat.pos_iff_ne_zero.mp hpos
  exact div_self this

/-- C6 witness: a concrete valid parameterization with empty overlap. -/
theorem enrichment_test_zero_overlap_witness :
    2 ≤ 4 ∧ 2 ≤ 4 ∧ enrichment_test 0 4 2 2 = 1 :=
  ⟨by decide, by decide, enrichment_test_zero_overlap 4 2 2 (by decide) (by decide)⟩

/-! ### Site combination (`pipeline/interface/combination.py`) -/

/-- The `"absmax"` entry of `SITE_COMBINATION`
(`pipeline/interface/combination.py`): `lambda changes: max(changes, key=abs)`.
CPython's `max` scans left to right and replaces the current best only when
the key is strictly greater, so ties keep the first occurrence; the nonempty
input sequence is passed as head and tail. -/
def absmax (a : ℚ) (l : List ℚ) : ℚ :=
  l.foldl (fun acc x => if |acc| < |x| then x else acc) a

theorem absmax_cons (a x : ℚ) (t : List ℚ) :
    absmax a (x :: t) = absmax (if |a| < |x| then x else a) t := rfl

theorem absmax_abs_le (a : ℚ) (l : List ℚ) : |a| ≤ |absmax a l| := by
  induction l generalizing a with
  | nil => exact le_refl _
  | cons x t ih =>
    rw [absmax_cons]
    by_cases h : |a| < |x|
    · rw [if_pos h]
      exact le_trans (le_of_lt h) (ih x)
    · rw [if_neg h]
      exact ih a

theorem absmax_stay (a : ℚ) (l : List ℚ) (h : |absmax a l| ≤ |a|) :
    absmax a l = a := by
  induction l generalizing a with
  | nil => rfl
  | cons x t ih =>
    rw [absmax_cons] at h ⊢
    by_cases hx : |a| < |x|
    · rw [if_pos hx] at h
      have := absmax_abs_le x t
      exact absurd (lt_of_lt_of_le hx this) (not_lt.mpr h)
    · rw [if_neg hx] at h ⊢
      exact ih a h

/-- C9: `absmax` returns an element of the nonempty input whose absolute
value is maximal, and it is the first such occurrence: `find?` for the
maximal absolute value returns exactly the computed element. -/
theorem absmax_spec (a : ℚ) (l : List ℚ) :
    absmax a l ∈ a :: l ∧
    (∀ x ∈ a :: l, |x| ≤ |absmax a l|) ∧
    (a :: l).find? (fun x => decide (|absmax a l| ≤ |x|)) = some (absmax a l) := by
  refine ⟨?_, ?_, ?_⟩
  · induction l generalizing a with
    | nil => exact List.mem_cons_self _ _
    | cons x t ih =>
      rw [absmax_cons]
      by_cases h : |a| < |x|
      · rw [if_pos h]
        exact List.mem_cons_of_mem _ (ih x)
      · rw [if_neg h]
        rcases List.mem_cons.mp (ih a) with h' | h'
        · rw [h']; exact List.mem_cons_self _ _
        · exact List.mem_cons_of_mem _ (List.mem_cons_of_mem _ h')
  · induction l generalizing a with
    | nil =>
      intro x hx
      rcases List.mem_cons.mp hx with rfl | h
      · exact le_refl _
      · cases h
    | cons y t ih =>
      intro x hx
      rw [absmax_cons]
      have hacc : |a| ≤ |if |a| < |y| then y else a| := by
        by_cases h : |a| < |y|
        · rw [if_pos h]; exact le_of_lt h
        · rw [if_neg h]
      have hy : |y| ≤ |if |a| < |y| then y else a| := by
        by_cases h : |a| < |y|
        · rw [if_pos h]
        · rw [if_neg h]; exact not_lt.mp h
      rcases List.mem_cons.mp hx with rfl | hx'
      · exact le_trans hacc (absmax_abs_le _ t)
      · rcases List.mem_cons.mp hx' with rfl | hx''
        · exact le_trans hy (absmax_abs_le _ t)
        · exact ih _ x (List.mem_cons_of_mem _ hx'')
  · induction l generalizing a with
    | nil =>
      have : (decide (|absmax a []| ≤ |a|)) = true := by
        simp [absmax]
      simp [List.find?, this, absmax]
    | cons x t ih =>
      rw [absmax_cons]
      by_cases h1 : |a| < |x|
      · rw [if_pos h1]
        have hlt : |a| < |absmax x t| := lt_of_lt_of_le h1 (absmax_abs_le x t)
        have hpa : (decide (|absmax x t| ≤ |a|)) = false :=
          decide_eq_false (not_le.mpr hlt)
        simp only [List.find?_cons, hpa]
        exact ih x
      · rw [if_neg h1]
        by_cases h2 : |absmax a t| ≤ |a|
        · have heq : absmax a t = a := absmax_stay a t h2
          rw [heq]
          have hpa : (decide (|a| ≤ |a|)) = true := decide_eq_true (le_refl _)
          simp only [List.find?_cons, hpa]
        · have hpa : (decide (|absmax a t| ≤ |a|)) = false := decide_eq_false h2
          have hpx : (decide (|absmax a t| ≤ |x|)) = false :=
            decide_eq_false (not_le.mpr (lt_of_le_of_lt (not_lt.mp h1) (not_le.mp h2)))
          simp only [List.find?_cons, hpa, hpx]
          have := ih a
          simp only [List.find?_cons, hpa] at this
          exact this

/-! ### Measurement ingestion (`pipeline/protein_protein_interaction_network.py`,
`add_proteins_from_excel`) -/

/-- A spreadsheet row as read by `add_proteins_from_excel`: missingness of
the protein accession and position cells, and the replicate cells
(`none` embeds a NaN cell). -/
structure MeasurementRow where
  accession_missing : Bool
  position_missing : Bool
  replicates : List (Option ℚ)

/-- `measurements = [row[repl] for repl in replicates if not pd.isna(row[repl])]`. -/
def row_measurements (row : MeasurementRow) : List ℚ :=
  row.replicates.filterMap id

/-- The row-filtering loop of `add_proteins_from_excel`: skip a row whose
accession or position is missing (`continue`), keep a row with
`len(measurements) >= min(num_replicates, len(replicates))`, skip it
otherwise; ingestion always continues with the remaining rows. -/
def ingest_measurements (num_replicates : ℕ) : List MeasurementRow → List (List ℚ)
  | [] => []
  | row :: rest =>
    if row.accession_missing || row.position_missing then
      ingest_measurements num_replicates rest
    else if (row_measurements row).length ≥ min num_replicates row.replicates.length then
      row_measurements row :: ingest_measurements num_replicates rest
    else
      ingest_measurements num_replicates rest

/-- C7 counterexample: with a configured minimum of 2 replicates but a
single replicate column, a row with only one non-missing value (below the
configured minimum) is processed, not skipped: the code compares against
`min(num_replicates, len(replicates))`, not against `num_replicates`. -/
theorem insufficient_replicates_claim_false :
    (row_measurements ⟨false, false, [some 1]⟩).length < 2 ∧
    ingest_measurements 2 [⟨false, false, [some 1]⟩] = [[1]] := by
  constructor
  · decide
  · rfl

/-- C7 (amended): during ingestion a row whose count of non-missing
replicate values is below the effective minimum
`min(num_replicates, number of replicate columns)` is skipped while
ingestion continues with the remaining rows, and a row with complete
identifiers and at least the effective minimum is processed. -/
theorem insufficient_replicates_skip (n : ℕ) (row : MeasurementRow)
    (rest : List MeasurementRow) :
    ((row_measurements row).length < min n row.replicates.length →
      ingest_measurements n (row :: rest) = ingest_measurements n rest) ∧
    (row.accession_missing = false → row.position_missing = false →
      (row_measurements row).length ≥ min n row.replicates.length →
      ingest_measurements n (row :: rest) =
        row_measurements row :: ingest_measurements n rest) := by
  constructor
  · intro hlt
    show (if row.accession_missing || row.position_missing then
        ingest_measurements n rest
      else if (row_measurements row).length ≥ min n row.replicates.length then
        row_measurements row :: ingest_measurements n rest
      else ingest_measurements n rest) = ingest_measurements n rest
    by_cases hna : (row.accession_missing || row.position_missing) = true
    · rw [if_pos hna]
    · rw [if_neg hna, if_neg (not_le.mpr hlt)]
  · intro ha hp hge
    show (if row.accession_missing || row.position_missing then
        ingest_measurements n rest
      else if (row_measurements row).length ≥ min n row.replicates.length then
        row_measurements row :: ingest_measurements n rest
      else ingest_measurements n rest) =
      row_measurements row :: ingest_measurements n rest
    rw [ha, hp]
    show (if false || false then _ else _) = _
    rw [Bool.false_or, if_neg (by simp), if_pos hge]

/-- C7 witness: the amended skip rule at a concrete row with one of two
replicate values missing and configured minimum 2. -/
theorem insufficient_replicates_skip_witness :
    (row_measurements ⟨false, false, [some 1, none]⟩).length <
      min 2 ([some (1 : ℚ), none] : List (Option ℚ)).length ∧
    ingest_measurements 2 [⟨false, false, [some 1, none]⟩] =
      ingest_measurements 2 [] :=
  ⟨by decide, (insufficient_replicates_skip 2 ⟨false, false, [some 1, none]⟩ []).1
    (by decide)⟩

/-! ### Site prioritization (`pipeline/protein_protein_interaction_network.py`,
`add_proteins_from_excel`, site cap) -/

/-- Python's default tuple comparison on `(position, value)` site pairs:
lexicographic order, used by the outer `sorted(...)`. -/
def lexLE (a b : ℕ × ℚ) : Prop := a.1 < b.1 ∨ (a.1 = b.1 ∧ a.2 ≤ b.2)

instance : DecidableRel lexLE := fun a b =>
  decidable_of_iff (a.1 < b.1 ∨ (a.1 = b.1 ∧ a.2 ≤ b.2)) Iff.rfl

instance : IsTotal (ℕ × ℚ) lexLE := by
  constructor
  intro a b
  rcases Nat.lt_trichotomy a.1 b.1 with h | h | h
  · exact Or.inl (Or.inl h)
  · rcases le_total a.2 b.2 with h2 | h2
    · exact Or.inl (Or.inr ⟨h, h2⟩)
    · exact Or.inr (Or.inr ⟨h.symm, h2⟩)
  · exact Or.inr (Or.inl h)

instance : IsTrans (ℕ × ℚ) lexLE := by
  constructor
  intro a b c hab hbc
  rcases hab with h1 | ⟨h1, h1'⟩ <;> rcases hbc with h2 | ⟨h2, h2'⟩
  · exact Or.inl (lt_trans h1 h2)
  · exact Or.inl (h2 ▸ h1)
  · exact Or.inl (h1 ▸ h2)
  · exact Or.inr ⟨h1.trans h2, h1'.trans h2'⟩

instance : IsAntisymm (ℕ × ℚ) lexLE := by
  constructor
  intro a b hab hba
  rcases hab with h1 | ⟨h1, h1'⟩ <;> rcases hba with h2 | ⟨h2, h2'⟩
  · omega
  · omega
  · omega
  · exact Prod.ext h1 (le_antisymm h1' h2')

/-- The comparison of `sorted(..., key=lambda tp: tp[1], reverse=True)`:
a stable descending sort by the measurement value. -/
def descByValue (a b : ℕ × ℚ) : Prop := b.2 ≤ a.2

instance : DecidableRel descByValue := fun a b =>
  decidable_of_iff (b.2 ≤ a.2) Iff.rfl

instance : IsTotal (ℕ × ℚ) descByValue := ⟨fun a b => le_total b.2 a.2⟩

instance : IsTrans (ℕ × ℚ) descByValue := ⟨fun _ _ _ h h' => le_trans h' h⟩

/-- The site-cap branch of `add_proteins_from_excel`:
`if len(sites) > num_sites:
   sites = sorted(sorted(sites, key=lambda tp: tp[1], reverse=True)[:num_sites])`,
on `(position, value)` pairs; Python's stable sorts are embedded as stable
insertion sorts. -/
def prioritize_sites (num_sites : ℕ) (sites : List (ℕ × ℚ)) : List (ℕ × ℚ) :=
  if num_sites < sites.length then
    List.insertionSort lexLE ((List.insertionSort descByValue sites).take num_sites)
  else sites

/-- C8: when a protein's ingested sites exceed the cap, exactly the
cap-many sites chosen by the prioritization rule (the stable descending
sort by value, truncated to the cap) are retained, the stored series never
exceeds the cap (`length = min(#sites, cap)`), and the kept sites appear in
their original (position-sorted) order: the result is a sublist of the
ingested sequence. -/
theorem prioritize_sites_spec (num_sites : ℕ) (sites : List (ℕ × ℚ))
    (hs : sites.Sorted lexLE) :
    (prioritize_sites num_sites sites).length = min sites.length num_sites ∧
    (prioritize_sites num_sites sites).Perm
      ((List.insertionSort descByValue sites).take num_sites) ∧
    (prioritize_sites num_sites sites).Sublist sites := by
  unfold prioritize_sites
  by_cases h : num_sites < sites.length
  · rw [if_pos h]
    have hperm1 : (List.insertionSort lexLE
        ((List.insertionSort descByValue sites).take num_sites)).Perm
        ((List.insertionSort descByValue sites).take num_sites) :=
      List.perm_insertionSort lexLE _
    refine ⟨?_, hperm1, ?_⟩
    · rw [hperm1.length_eq, List.length_take, List.length_insertionSort]
      omega
    · have hsubperm : (List.insertionSort lexLE
          ((List.insertionSort descByValue sites).take num_sites)).Subperm sites := by
        refine List.Subperm.trans (hperm1.subperm) ?_
        refine List.Subperm.trans (List.take_sublist _ _).subperm ?_
        exact (List.perm_insertionSort descByValue sites).subperm
      exact List.sublist_of_subperm_of_sorted hsubperm
        (List.sorted_insertionSort lexLE _) hs
  · rw [if_neg h]
    have hlen : sites.length ≤ num_sites := not_lt.mp h
    refine ⟨by omega, ?_, List.Sublist.refl sites⟩
    have htake : (List.insertionSort descByValue sites).take num_sites =
        List.insertionSort descByValue sites := by
      apply List.take_of_length_le
      rw [List.length_insertionSort]
      exact hlen
    rw [htake]
    exact (List.perm_insertionSort descByValue sites).symm

/-- C8 witness: three position-sorted sites capped at two. -/
theorem prioritize_sites_spec_witness :
    ([((1 : ℕ), (0 : ℚ)), (2, 3), (5, 1)] : List (ℕ × ℚ)).Sorted lexLE ∧
    (prioritize_sites 2 [((1 : ℕ), (0 : ℚ)), (2, 3), (5, 1)]).length =
      min ([((1 : ℕ), (0 : ℚ)), (2, 3), (5, 1)] : List (ℕ × ℚ)).length 2 :=
  ⟨by decide, (prioritize_sites_spec 2 [((1 : ℕ), (0 : ℚ)), (2, 3), (5, 1)]
    (by decide)).1⟩

/-! ### Protein-protein interaction network
(`pipeline/protein_protein_interaction_network.py`) -/

/-- Attribute association list of one edge: per-source confidence scores.
`setAttr` is Python's `dict.__setitem__`: replace in place or append. -/
def setAttr : List (String × ℚ) → String → ℚ → List (String × ℚ)
  | [], key, v => [(key, v)]
  | (k, w) :: rest, key, v =>
    if k = key then (key, v) :: rest else (k, w) :: setAttr rest key v

/-- `dict.get`: the score stored for a source, if any. -/
def getAttr : List (String × ℚ) → String → Option ℚ
  | [], _ => none
  | (k, w) :: rest, key => if k = key then some w else getAttr rest key

/-- An undirected `networkx` edge keyed `(u, v)` matches the query pair
`(a, b)` in either orientation. -/
def edgeMatch (uv : String × String) (a b : String) : Prop :=
  (uv.1 = a ∧ uv.2 = b) ∨ (uv.1 = b ∧ uv.2 = a)

instance (uv : String × String) (a b : String) : Decidable (edgeMatch uv a b) :=
  decidable_of_iff ((uv.1 = a ∧ uv.2 = b) ∨ (uv.1 = b ∧ uv.2 = a)) Iff.rfl

/-- The `ProteinProteinInteractionNetwork` graph: node list and edge list,
each edge an unordered accession pair with its attribute dictionary. -/
structure Net where
  nodes : List String
  edges : List ((String × String) × List (String × ℚ))

/-- `self.has_edge(a, b)`. -/
def hasEdge (g : Net) (a b : String) : Bool :=
  g.edges.any fun e => decide (edgeMatch e.1 a b)

/-- Mutation of the attribute dictionary of the (first) edge of the
unordered pair `(a, b)`, as `self.edges[a, b][...] = ...`. -/
def updateEdge : List ((String × String) × List (String × ℚ)) → String → String →
    (List (String × ℚ) → List (String × ℚ)) →
    List ((String × String) × List (String × ℚ))
  | [], _, _, _ => []
  | e :: rest, a, b, f =>
    if edgeMatch e.1 a b then (e.1, f e.2) :: rest else e :: updateEdge rest a b f

/-- `networkx.Graph.add_node` semantics inside `add_edge`: missing endpoint
nodes are appended. -/
def addNode (ns : List String) (x : String) : List String :=
  if x ∈ ns then ns else ns ++ [x]

/-- Lookup of the stored edge of an unordered pair. -/
def findEdge (g : Net) (a b : String) :
    Option ((String × String) × List (String × ℚ)) :=
  g.edges.find? fun e => decide (edgeMatch e.1 a b)

/-- `self.edges[a, b].get(key)`. -/
def getEdgeAttr (g : Net) (a b key : String) : Option ℚ :=
  match findEdge g a b with
  | some e => getAttr e.2 key
  | none => none

/-- The per-source merge pattern shared by the evidence-adding operations:
if the unordered pair already has an edge, set that source's score to
`max(score, existing or 0.0)`; otherwise `add_edge` and store the score. -/
def mergeSourceScore (g : Net) (a b source : String) (score : ℚ) : Net :=
  if hasEdge g a b then
    { g with edges := updateEdge g.edges a b fun attrs =>
        setAttr attrs source (max score ((getAttr attrs source).getD 0)) }
  else
    { nodes := addNode (addNode g.nodes a) b,
      edges := g.edges ++ [((a, b), [(source, score)])] }

/-- Lines 417-429 of `add_interactions_from_IntAct`:
`if self.has_edge(a, b): self.edges[a, b]["IntAct"] =
   max(score, self.edges[a, b].get("IntAct", 0.0))
 else: self.add_edge(a, b); self.edges[a, b]["IntAct"] = score`. -/
def mergeIntAct (g : Net) (interactor_a interactor_b : String) (score : ℚ) : Net :=
  if hasEdge g interactor_a interactor_b then
    { g with edges := updateEdge g.edges interactor_a interactor_b fun attrs =>
        setAttr attrs "IntAct" (max score ((getAttr attrs "IntAct").getD 0)) }
  else
    { nodes := addNode (addNode g.nodes interactor_a) interactor_b,
      edges := g.edges ++ [((interactor_a, interactor_b), [("IntAct", score)])] }

/-- Lines 498-511 of `add_interactions_from_STRING`: the same merge with
source `"STRING"` and score `row["combined_score"] / 1000`. -/
def mergeSTRING (g : Net) (a b : String) (combined_score : ℚ) : Net :=
  if hasEdge g a b then
    { g with edges := updateEdge g.edges a b fun attrs =>
        setAttr attrs "STRING" (max (combined_score / 1000)
          ((getAttr attrs "STRING").getD 0)) }
  else
    { nodes := addNode (addNode g.nodes a) b,
      edges := g.edges ++ [((a, b), [("STRING", combined_score / 1000)])] }

/-- Lines 318-325 of `add_interactions_from_BioGRID`:
`self.add_edge(a, b); self.edges[a, b]["BioGRID"] = 1.0`. -/
def addEdgeBioGRID (g : Net) (a b : String) : Net :=
  if hasEdge g a b then
    { g with edges := updateEdge g.edges a b fun attrs => setAttr attrs "BioGRID" 1 }
  else
    { nodes := addNode (addNode g.nodes a) b,
      edges := g.edges ++ [((a, b), [("BioGRID", 1)])] }

theorem mergeIntAct_eq (g : Net) (a b : String) (s : ℚ) :
    mergeIntAct g a b s = mergeSourceScore g a b "IntAct" s := rfl

theorem mergeSTRING_eq (g : Net) (a b : String) (s : ℚ) :
    mergeSTRING g a b s = mergeSourceScore g a b "STRING" (s / 1000) := rfl

theorem getAttr_setAttr_same (l : List (String × ℚ)) (k : String) (v : ℚ) :
    getAttr (setAttr l k v) k = some v := by
  induction l with
  | nil => simp [setAttr, getAttr]
  | cons kw rest ih =>
    obtain ⟨k', w⟩ := kw
    by_cases h : k' = k
    · simp [setAttr, getAttr, h]
    · simp only [setAttr, getAttr, if_neg h]
      exact ih

theorem getAttr_setAttr_other (l : List (String × ℚ)) (k k' : String) (v : ℚ)
    (h : k' ≠ k) : getAttr (setAttr l k v) k' = getAttr l k' := by
  induction l with
  | nil => simp [setAttr, getAttr, Ne.symm h]
  | cons kw rest ih =>
    obtain ⟨k0, w⟩ := kw
    by_cases h0 : k0 = k
    · subst h0
      simp only [setAttr, if_pos rfl, getAttr]
      rw [if_neg (fun hc => h hc.symm), if_neg (fun hc => h hc.symm)]
    · simp only [setAttr, if_neg h0, getAttr]
      by_cases h1 : k0 = k'
      · rw [if_pos h1, if_pos h1]
      · rw [if_neg h1, if_neg h1]
        exact ih

theorem setAttr_setAttr (l : List (String × ℚ)) (k : String) (v w : ℚ) :
    setAttr (setAttr l k v) k w = setAttr l k w := by
  induction l with
  | nil => simp [setAttr]
  | cons kw rest ih =>
    obtain ⟨k0, u⟩ := kw
    by_cases h0 : k0 = k
    · simp [setAttr, h0]
    · simp only [setAttr, if_neg h0]
      exact congrArg _ ih

theorem any_updateEdge (es : List ((String × String) × List (String × ℚ)))
    (a b c d : String) (f : List (String × ℚ) → List (String × ℚ)) :
    (updateEdge es a b f).any (fun e => decide (edgeMatch e.1 c d)) =
      es.any (fun e => decide (edgeMatch e.1 c d)) := by
  induction es with
  | nil => rfl
  | cons e rest ih =>
    by_cases h : edgeMatch e.1 a b
    · rw [updateEdge, if_pos h]
      simp [List.any_cons]
    · rw [updateEdge, if_neg h]
      simp only [List.any_cons, ih]

theorem find?_updateEdge_match (es : List ((String × String) × List (String × ℚ)))
    (a b : String) (f : List (String × ℚ) → List (String × ℚ)) :
    (updateEdge es a b f).find? (fun e => decide (edgeMatch e.1 a b)) =
      (es.find? (fun e => decide (edgeMatch e.1 a b))).map (fun e => (e.1, f e.2)) := by
  induction es with
  | nil => rfl
  | cons e rest ih =>
    by_cases h : edgeMatch e.1 a b
    · rw [updateEdge, if_pos h]
      rw [List.find?_cons_of_pos _ (by simpa using h),
        List.find?_cons_of_pos _ (by simpa using h)]
      rfl
    · rw [updateEdge, if_neg h]
      rw [List.find?_cons_of_neg _ (by simpa using h),
        List.find?_cons_of_neg _ (by simpa using h)]
      exact ih

theorem edgeMatch_disjoint {uv : String × String} {a b c d : String}
    (hm : edgeMatch uv a b) (hne : ¬ ((c = a ∧ d = b) ∨ (c = b ∧ d = a))) :
    ¬ edgeMatch uv c d := by
  intro hc
  rcases hm with ⟨h1, h2⟩ | ⟨h1, h2⟩ <;> rcases hc with ⟨h3, h4⟩ | ⟨h3, h4⟩ <;>
    subst h1 <;> subst h2 <;>
    exact hne (by tauto)

theorem find?_updateEdge_other (es : List ((String × String) × List (String × ℚ)))
    (a b c d : String) (f : List (String × ℚ) → List (String × ℚ))
    (hne : ¬ ((c = a ∧ d = b) ∨ (c = b ∧ d = a))) :
    (updateEdge es a b f).find? (fun e => decide (edgeMatch e.1 c d)) =
      es.find? (fun e => decide (edgeMatch e.1 c d)) := by
  induction es with
  | nil => rfl
  | cons e rest ih =>
    by_cases h : edgeMatch e.1 a b
    · rw [updateEdge, if_pos h]
      have hno : ¬ edgeMatch e.1 c d := edgeMatch_disjoint h hne
      rw [List.find?_cons_of_neg _ (by simpa using hno),
        List.find?_cons_of_neg _ (by simpa using hno)]
    · rw [updateEdge, if_neg h]
      by_cases h2 : edgeMatch e.1 c d
      · rw [List.find?_cons_of_pos _ (by simpa using h2),
          List.find?_cons_of_pos _ (by simpa using h2)]
      · rw [List.find?_cons_of_neg _ (by simpa using h2),
          List.find?_cons_of_neg _ (by simpa using h2)]
        exact ih

theorem updateEdge_updateEdge (es : List ((String × String) × List (String × ℚ)))
    (a b : String) (f f' : List (String × ℚ) → List (String × ℚ)) :
    updateEdge (updateEdge es a b f) a b f' =
      updateEdge es a b (fun x => f' (f x)) := by
  induction es with
  | nil => rfl
  | cons e rest ih =>
    by_cases h : edgeMatch e.1 a b
    · rw [updateEdge, if_pos h, updateEdge, if_pos h, updateEdge, if_pos h]
    · rw [updateEdge, if_neg h, updateEdge, if_neg h, updateEdge, if_neg h, ih]

theorem updateEdge_append_no_match (es l₂ : List ((String × String) × List (String × ℚ)))
    (a b : String) (f : List (String × ℚ) → List (String × ℚ))
    (h : ∀ e ∈ es, ¬ edgeMatch e.1 a b) :
    updateEdge (es ++ l₂) a b f = es ++ updateEdge l₂ a b f := by
  induction es with
  | nil => rfl
  | cons e rest ih =>
    rw [List.cons_append, updateEdge, if_neg (h e (List.mem_cons_self _ _)),
      List.cons_append]
    exact congrArg _ (ih fun e' he' => h e' (List.mem_cons_of_mem _ he'))

theorem hasEdge_eq_findEdge_isSome (g : Net) (a b : String) :
    hasEdge g a b = (findEdge g a b).isSome := by
  unfold hasEdge findEdge
  induction g.edges with
  | nil => rfl
  | cons e rest ih =>
    by_cases h : edgeMatch e.1 a b
    · rw [List.any_cons, List.find?_cons_of_pos _ (by simpa using h)]
      simp [h]
    · rw [List.any_cons, List.find?_cons_of_neg _ (by simpa using h)]
      rw [decide_eq_false h, Bool.false_or]
      exact ih

theorem getEdgeAttr_of_findEdge (g : Net) (a b key : String)
    (e : (String × String) × List (String × ℚ)) (he : findEdge g a b = some e) :
    getEdgeAttr g a b key = getAttr e.2 key := by
  unfold getEdgeAttr
  rw [he]

theorem findEdge_merge_hasEdge (g : Net) (a b src : String) (s : ℚ)
    (h : hasEdge g a b = true) (e : (String × String) × List (String × ℚ))
    (he : findEdge g a b = some e) :
    findEdge (mergeSourceScore g a b src s) a b =
      some (e.1, setAttr e.2 src (max s ((getAttr e.2 src).getD 0))) := by
  unfold mergeSourceScore
  rw [if_pos h]
  unfold findEdge at he ⊢
  simp only
  rw [find?_updateEdge_match, he]
  rfl

theorem findEdge_some_of_hasEdge (g : Net) (a b : String) (h : hasEdge g a b = true) :
    ∃ e, findEdge g a b = some e := by
  have : (findEdge g a b).isSome := by rw [← hasEdge_eq_findEdge_isSome]; exact h
  exact Option.isSome_iff_exists.mp this

theorem edgeMatch_self (a b : String) : edgeMatch (a, b) a b := Or.inl ⟨rfl, rfl⟩

theorem findEdge_merge_other (g : Net) (a b src : String) (s : ℚ) (c d : String)
    (hne : ¬ ((c = a ∧ d = b) ∨ (c = b ∧ d = a))) :
    findEdge (mergeSourceScore g a b src s) c d = findEdge g c d := by
  unfold mergeSourceScore
  by_cases h : hasEdge g a b = true
  · rw [if_pos h]
    unfold findEdge
    simp only
    exact find?_updateEdge_other g.edges a b c d _ hne
  · rw [if_neg h]
    unfold findEdge
    simp only
    rw [List.find?_append]
    have hno : ¬ edgeMatch (a, b) c d := by
      intro hc
      rcases hc with ⟨h1, h2⟩ | ⟨h1, h2⟩ <;> exact hne (by tauto)
    rw [List.find?_cons_of_neg _ (by simpa using hno)]
    simp [List.find?_nil]

/-- C4: merging evidence for an already-present edge updates exactly that
source's score to `max(existing, new)` — all other attributes of the edge
and all other edges are untouched — hence the stored score never decreases,
and merging the same tuple twice equals merging it once, for the IntAct and
STRING evidence-adding operations. -/
theorem evidence_merge_max_idempotent :
    (∀ (g : Net) (a b : String) (s : ℚ), hasEdge g a b = true →
      getEdgeAttr (mergeIntAct g a b s) a b "IntAct" =
        some (max s ((getEdgeAttr g a b "IntAct").getD 0))) ∧
    (∀ (g : Net) (a b : String) (s : ℚ) (k : String), hasEdge g a b = true →
      k ≠ "IntAct" → getEdgeAttr (mergeIntAct g a b s) a b k = getEdgeAttr g a b k) ∧
    (∀ (g : Net) (a b : String) (s : ℚ) (c d k : String),
      ¬ ((c = a ∧ d = b) ∨ (c = b ∧ d = a)) →
      getEdgeAttr (mergeIntAct g a b s) c d k = getEdgeAttr g c d k) ∧
    (∀ (g : Net) (a b : String) (s : ℚ), hasEdge g a b = true →
      (getEdgeAttr g a b "IntAct").getD 0 ≤
        (getEdgeAttr (mergeIntAct g a b s) a b "IntAct").getD 0) ∧
    (∀ (g : Net) (a b : String) (s : ℚ),
      mergeIntAct (mergeIntAct g a b s) a b s = mergeIntAct g a b s) ∧
    (∀ (g : Net) (a b : String) (s : ℚ), hasEdge g a b = true →
      getEdgeAttr (mergeSTRING g a b s) a b "STRING" =
        some (max (s / 1000) ((getEdgeAttr g a b "STRING").getD 0))) ∧
    (∀ (g : Net) (a b : String) (s : ℚ) (k : String), hasEdge g a b = true →
      k ≠ "STRING" → getEdgeAttr (mergeSTRING g a b s) a b k = getEdgeAttr g a b k) ∧
    (∀ (g : Net) (a b : String) (s : ℚ) (c d k : String),
      ¬ ((c = a ∧ d = b) ∨ (c = b ∧ d = a)) →
      getEdgeAttr (mergeSTRING g a b s) c d k = getEdgeAttr g c d k) ∧
    (∀ (g : Net) (a b : String) (s : ℚ), hasEdge g a b = true →
      (getEdgeAttr g a b "STRING").getD 0 ≤
        (getEdgeAttr (mergeSTRING g a b s) a b "STRING").getD 0) ∧
    (∀ (g : Net) (a b : String) (s : ℚ),
      mergeSTRING (mergeSTRING g a b s) a b s = mergeSTRING g a b s) := by
  have hupd : ∀ (g : Net) (a b src : String) (s : ℚ), hasEdge g a b = true →
      getEdgeAttr (mergeSourceScore g a b src s) a b src =
        some (max s ((getEdgeAttr g a b src).getD 0)) := by
    intro g a b src s h
    obtain ⟨e, he⟩ := findEdge_some_of_hasEdge g a b h
    rw [getEdgeAttr_of_findEdge _ a b src _ (findEdge_merge_hasEdge g a b src s h e he)]
    simp only
    rw [getAttr_setAttr_same, getEdgeAttr_of_findEdge g a b src e he]
  have hother : ∀ (g : Net) (a b src : String) (s : ℚ) (k : String),
      hasEdge g a b = true → k ≠ src →
      getEdgeAttr (mergeSourceScore g a b src s) a b k = getEdgeAttr g a b k := by
    intro g a b src s k h hk
    obtain ⟨e, he⟩ := findEdge_some_of_hasEdge g a b h
    rw [getEdgeAttr_of_findEdge _ a b k _ (findEdge_merge_hasEdge g a b src s h e he)]
    simp only
    rw [getAttr_setAttr_other _ _ _ _ hk, getEdgeAttr_of_findEdge g a b k e he]
  have hpair : ∀ (g : Net) (a b src : String) (s : ℚ) (c d k : String),
      ¬ ((c = a ∧ d = b) ∨ (c = b ∧ d = a)) →
      getEdgeAttr (mergeSourceScore g a b src s) c d k = getEdgeAttr g c d k := by
    intro g a b src s c d k hne
    unfold getEdgeAttr
    rw [findEdge_merge_other g a b src s c d hne]
  have hmono : ∀ (g : Net) (a b src : String) (s : ℚ), hasEdge g a b = true →
      (getEdgeAttr g a b src).getD 0 ≤
        (getEdgeAttr (mergeSourceScore g a b src s) a b src).getD 0 := by
    intro g a b src s h
    rw [hupd g a b src s h]
    exact le_max_right _ _
  have hidem : ∀ (g : Net) (a b src : String) (s : ℚ),
      mergeSourceScore (mergeSourceScore g a b src s) a b src s =
        mergeSourceScore g a b src s := by
    intro g a b src s
    by_cases h : hasEdge g a b = true
    · have h2 : hasEdge (mergeSourceScore g a b src s) a b = true := by
        unfold mergeSourceScore
        rw [if_pos h]
        unfold hasEdge
        simp only
        rw [any_updateEdge]
        exact h
      conv =>
        lhs
        rw [mergeSourceScore]
      rw [if_pos h2]
      have hedges : mergeSourceScore g a b src s =
          { g with edges := updateEdge g.edges a b fun attrs =>
              setAttr attrs src (max s ((getAttr attrs src).getD 0)) } := by
        unfold mergeSourceScore
        rw [if_pos h]
      rw [hedges]
      simp only
      rw [updateEdge_updateEdge]
      have hfun : (fun x => setAttr (setAttr x src (max s ((getAttr x src).getD 0)))
          src (max s ((getAttr (setAttr x src (max s ((getAttr x src).getD 0)))
            src).getD 0))) =
          (fun attrs => setAttr attrs src (max s ((getAttr attrs src).getD 0))) := by
        funext x
        rw [getAttr_setAttr_same]
        simp only [Option.getD_some]
        rw [setAttr_setAttr]
        have : max s (max s ((getAttr x src).getD 0)) =
            max s ((getAttr x src).getD 0) := by
          rw [← max_assoc, max_self]
        rw [this]
      rw [hfun]
    · have hne := h
      have hinner : mergeSourceScore g a b src s =
          Net.mk (addNode (addNode g.nodes a) b)
            (g.edges ++ [((a, b), [(src, s)])]) := by
        unfold mergeSourceScore
        rw [if_neg hne]
      rw [hinner]
      have h2 : hasEdge (Net.mk (addNode (addNode g.nodes a) b)
          (g.edges ++ [((a, b), [(src, s)])])) a b = true := by
        unfold hasEdge
        simp only [List.any_append, List.any_cons, List.any_nil]
        rw [decide_eq_true (edgeMatch_self a b)]
        simp
      unfold mergeSourceScore
      rw [if_pos h2]
      have hnomatch : ∀ e ∈ g.edges, ¬ edgeMatch e.1 a b := by
        intro e hmem hmatch
        have : g.edges.any (fun e => decide (edgeMatch e.1 a b)) = true :=
          List.any_eq_true.mpr ⟨e, hmem, decide_eq_true hmatch⟩
        exact hne this
      have hedges : updateEdge (g.edges ++ [((a, b), [(src, s)])]) a b
          (fun attrs => setAttr attrs src (max s ((getAttr attrs src).getD 0))) =
          g.edges ++ [((a, b), [(src, s)])] := by
        rw [updateEdge_append_no_match _ _ _ _ _ hnomatch]
        rw [updateEdge, if_pos (edgeMatch_self a b)]
        simp [getAttr, setAttr, max_self]
      show Net.mk _ _ = _
      rw [hedges]
  refine ⟨?_, ?_, ?_, ?_, ?_, ?_, ?_, ?_, ?_, ?_⟩
  · intro g a b s h
    rw [mergeIntAct_eq]
    exact hupd g a b "IntAct" s h
  · intro g a b s k h hk
    rw [mergeIntAct_eq]
    exact hother g a b "IntAct" s k h hk
  · intro g a b s c d k hne
    rw [mergeIntAct_eq]
    exact hpair g a b "IntAct" s c d k hne
  · intro g a b s h
    rw [mergeIntAct_eq]
    exact hmono g a b "IntAct" s h
  · intro g a b s
    rw [mergeIntAct_eq, mergeIntAct_eq]
    exact hidem g a b "IntAct" s
  · intro g a b s h
    rw [mergeSTRING_eq]
    exact hupd g a b "STRING" (s / 1000) h
  · intro g a b s k h hk
    rw [mergeSTRING_eq]
    exact hother g a b "STRING" (s / 1000) k h hk
  · intro g a b s c d k hne
    rw [mergeSTRING_eq]
    exact hpair g a b "STRING" (s / 1000) c d k hne
  · intro g a b s h
    rw [mergeSTRING_eq]
    exact hmono g a b "STRING" (s / 1000) h
  · intro g a b s
    rw [mergeSTRING_eq, mergeSTRING_eq]
    exact hidem g a b "STRING" (s / 1000)

/-- C4 witness: the max-merge and idempotence at a concrete network whose
single edge already carries IntAct evidence. -/
theorem evidence_merge_max_idempotent_witness :
    hasEdge ⟨["A", "B"], [(("A", "B"), [("IntAct", 1)])]⟩ "A" "B" = true ∧
    getEdgeAttr (mergeIntAct ⟨["A", "B"], [(("A", "B"), [("IntAct", 1)])]⟩ "A" "B" 2)
        "A" "B" "IntAct" =
      some (max 2 ((getEdgeAttr ⟨["A", "B"], [(("A", "B"), [("IntAct", 1)])]⟩
        "A" "B" "IntAct").getD 0)) :=
  ⟨by decide, evidence_merge_max_idempotent.1
    ⟨["A", "B"], [(("A", "B"), [("IntAct", 1)])]⟩ "A" "B" 2 (by decide)⟩

/-- A BioGRID interaction row, restricted to the columns
`add_interactions_from_BioGRID` reads. -/
structure BioGRIDRow where
  interactor_a : ℤ
  interactor_b : ℤ
  experimental_system : String
  experimental_system_type : String
  organism_a : ℤ
  organism_b : ℤ

/-- The per-row body of `add_interactions_from_BioGRID`: both BioGRID
identifiers must map to UniProt accessions, the mapped accessions must
differ, the experimental system must pass the optional filter, the system
type must be `"physical"` and both organisms must be 9606; then the edge is
added with `["BioGRID"] = 1.0`. -/
def addBioGRIDRow (uniprot : ℤ → Option String) (experimental_system : List String)
    (g : Net) (row : BioGRIDRow) : Net :=
  match uniprot row.interactor_a, uniprot row.interactor_b with
  | some a, some b =>
    if a ≠ b ∧
        (experimental_system = [] ∨ row.experimental_system ∈ experimental_system) ∧
        row.experimental_system_type = "physical" ∧
        row.organism_a = 9606 ∧ row.organism_b = 9606 then
      addEdgeBioGRID g a b
    else g
  | _, _ => g

/-- An IntAct MITAB row, carrying the identifier-namespace extraction
results `mitab.get_id_from_ns`/`ns_has_id`/`ns_has_any_term` computes for
the columns `add_interactions_from_IntAct` reads. -/
structure IntActRow where
  id_a : Option String
  alt_id_a : Option String
  id_b : Option String
  alt_id_b : Option String
  taxid_a_human : Bool
  taxid_b_human : Bool
  detection_method_match : Bool
  interaction_type_match : Bool
  mi_score : Option ℚ

/-- `interactor_a := get_id_from_ns(row, "uniprotkb") or
get_id_from_ns(alt row, "uniprotkb")`. -/
def mappedIntActA (row : IntActRow) : Option String :=
  row.id_a.orElse fun _ => row.alt_id_a

def mappedIntActB (row : IntActRow) : Option String :=
  row.id_b.orElse fun _ => row.alt_id_b

/-- The per-row body of `add_interactions_from_IntAct`, mirroring the
sequence of `continue` guards of the source: unmapped interactors, absent
nodes, equal interactors, non-human taxa, failing detection-method or
interaction-type filters, and missing or sub-threshold MI score all leave
the network unchanged; otherwise the IntAct score is merged. -/
def addIntActRow (interaction_detection_methods interaction_types : List String)
    (mi_score : ℚ) (g : Net) (row : IntActRow) : Net :=
  match mappedIntActA row with
  | none => g
  | some interactor_a =>
    if interactor_a ∉ g.nodes then g
    else match mappedIntActB row with
      | none => g
      | some interactor_b =>
        if interactor_b ∉ g.nodes then g
        else if interactor_a = interactor_b then g
        else if ¬ (row.taxid_a_human ∧ row.taxid_b_human) then g
        else if ¬ (interaction_detection_methods = [] ∨ row.detection_method_match) then g
        else if ¬ (interaction_types = [] ∨ row.interaction_type_match) then g
        else match row.mi_score with
          | none => g
          | some score =>
            if score < mi_score then g
            else mergeIntAct g interactor_a interactor_b score

/-- A STRING interaction row: the two protein identifiers, the combined
score and the outcome of the per-column threshold conjunction
`all(row[column] / 1000 >= thresholds[column])`. -/
structure STRINGRow where
  protein1 : String
  protein2 : String
  combined_score : ℚ
  meets_thresholds : Bool

/-- The per-row body of `add_interactions_from_STRING`: both identifiers
must map to UniProt accessions, the mapped accessions must differ and all
score thresholds must be met; then the STRING score is merged. -/
def addSTRINGRow (uniprot : String → Option String) (g : Net) (row : STRINGRow) : Net :=
  match uniprot row.protein1, uniprot row.protein2 with
  | some a, some b =>
    if a ≠ b ∧ row.meets_thresholds then mergeSTRING g a b row.combined_score
    else g
  | _, _ => g

/-- One element of an interleaved stream of evidence rows from the three
evidence-adding operations, with the mapping tables and filter parameters
of the operation that produced it. -/
inductive EvidenceRow where
  | biogrid (uniprot : ℤ → Option String) (experimental_system : List String)
      (row : BioGRIDRow)
  | intact (interaction_detection_methods interaction_types : List String)
      (mi_score : ℚ) (row : IntActRow)
  | strings (uniprot : String → Option String) (row : STRINGRow)

def processEvidence (g : Net) : EvidenceRow → Net
  | .biogrid uniprot experimental_system row =>
    addBioGRIDRow uniprot experimental_system g row
  | .intact methods types mi row => addIntActRow methods types mi g row
  | .strings uniprot row => addSTRINGRow uniprot g row

/-- No edge of the network is a self-loop. -/
def NoSelfLoop (g : Net) : Prop := ∀ e ∈ g.edges, e.1.1 ≠ e.1.2

theorem noSelfLoop_updateEdge (es : List ((String × String) × List (String × ℚ)))
    (a b : String) (f : List (String × ℚ) → List (String × ℚ))
    (h : ∀ e ∈ es, e.1.1 ≠ e.1.2) :
    ∀ e ∈ updateEdge es a b f, e.1.1 ≠ e.1.2 := by
  induction es with
  | nil => intro e he; cases he
  | cons e₀ rest ih =>
    intro e he
    by_cases hm : edgeMatch e₀.1 a b
    · rw [updateEdge, if_pos hm] at he
      rcases List.mem_cons.mp he with rfl | he'
      · exact h e₀ (List.mem_cons_self _ _)
      · exact h e (List.mem_cons_of_mem _ he')
    · rw [updateEdge, if_neg hm] at he
      rcases List.mem_cons.mp he with rfl | he'
      · exact h e (List.mem_cons_self _ _)
      · exact ih (fun e' he'' => h e' (List.mem_cons_of_mem _ he'')) e he'

theorem noSelfLoop_mergeSourceScore (g : Net) (a b src : String) (s : ℚ)
    (hg : NoSelfLoop g) (hab : a ≠ b) : NoSelfLoop (mergeSourceScore g a b src s) := by
  unfold mergeSourceScore
  by_cases h : hasEdge g a b = true
  · rw [if_pos h]
    exact noSelfLoop_updateEdge g.edges a b _ hg
  · rw [if_neg h]
    intro e he
    rcases List.mem_append.mp he with he' | he'
    · exact hg e he'
    · rcases List.mem_cons.mp he' with rfl | he''
      · exact hab
      · cases he''

theorem noSelfLoop_addEdgeBioGRID (g : Net) (a b : String)
    (hg : NoSelfLoop g) (hab : a ≠ b) : NoSelfLoop (addEdgeBioGRID g a b) := by
  unfold addEdgeBioGRID
  by_cases h : hasEdge g a b = true
  · rw [if_pos h]
    exact noSelfLoop_updateEdge g.edges a b _ hg
  · rw [if_neg h]
    intro e he
    rcases List.mem_append.mp he with he' | he'
    · exact hg e he'
    · rcases List.mem_cons.mp he' with rfl | he''
      · exact hab
      · cases he''

theorem noSelfLoop_processEvidence (g : Net) (e : EvidenceRow)
    (hg : NoSelfLoop g) : NoSelfLoop (processEvidence g e) := by
  cases e with
  | biogrid uniprot experimental_system row =>
    show NoSelfLoop (addBioGRIDRow uniprot experimental_system g row)
    unfold addBioGRIDRow
    cases hA : uniprot row.interactor_a with
    | none => exact hg
    | some a =>
      cases hB : uniprot row.interactor_b with
      | none => exact hg
      | some b =>
        dsimp only
        by_cases hcond : a ≠ b ∧
            (experimental_system = [] ∨ row.experimental_system ∈ experimental_system) ∧
            row.experimental_system_type = "physical" ∧
            row.organism_a = 9606 ∧ row.organism_b = 9606
        · rw [if_pos hcond]
          exact noSelfLoop_addEdgeBioGRID g a b hg hcond.1
        · rw [if_neg hcond]
          exact hg
  | intact methods types mi row =>
    show NoSelfLoop (addIntActRow methods types mi g row)
    unfold addIntActRow
    cases hA : mappedIntActA row with
    | none => exact hg
    | some a =>
      dsimp only
      by_cases hAn : a ∉ g.nodes
      · rw [if_pos hAn]; exact hg
      · rw [if_neg hAn]
        cases hB : mappedIntActB row with
        | none => exact hg
        | some b =>
          dsimp only
          by_cases hBn : b ∉ g.nodes
          · rw [if_pos hBn]; exact hg
          · rw [if_neg hBn]
            by_cases hab : a = b
            · rw [if_pos hab]; exact hg
            · rw [if_neg hab]
              by_cases htax : ¬ (row.taxid_a_human ∧ row.taxid_b_human)
              · rw [if_pos htax]; exact hg
              · rw [if_neg htax]
                by_cases hdet : ¬ (methods = [] ∨ row.detection_method_match)
                · rw [if_pos hdet]; exact hg
                · rw [if_neg hdet]
                  by_cases htyp : ¬ (types = [] ∨ row.interaction_type_match)
                  · rw [if_pos htyp]; exact hg
                  · rw [if_neg htyp]
                    cases hs : row.mi_score with
                    | none => exact hg
                    | some score =>
                      dsimp only
                      by_cases hlt : score < mi
                      · rw [if_pos hlt]; exact hg
                      · rw [if_neg hlt]
                        rw [mergeIntAct_eq]
                        exact noSelfLoop_mergeSourceScore g a b "IntAct" score hg hab
  | strings uniprot row =>
    show NoSelfLoop (addSTRINGRow uniprot g row)
    unfold addSTRINGRow
    cases hA : uniprot row.protein1 with
    | none => exact hg
    | some a =>
      cases hB : uniprot row.protein2 with
      | none => exact hg
      | some b =>
        dsimp only
        by_cases hcond : a ≠ b ∧ row.meets_thresholds
        · rw [if_pos hcond, mergeSTRING_eq]
          exact noSelfLoop_mergeSourceScore g a b "STRING"
            (row.combined_score / 1000) hg hcond.1
        · rw [if_neg hcond]
          exact hg

/-- C5: a tuple whose two mapped interactor identifiers are equal is
rejected by each evidence-adding operation (the network is unchanged), and
after any sequence of merges from any mixture of BioGRID, IntAct and STRING
rows the network contains no self-loop edge. -/
theorem no_self_loops :
    (∀ (uniprot : ℤ → Option String) (experimental_system : List String)
      (g : Net) (row : BioGRIDRow),
      uniprot row.interactor_a = uniprot row.interactor_b →
      addBioGRIDRow uniprot experimental_system g row = g) ∧
    (∀ (methods types : List String) (mi : ℚ) (g : Net) (row : IntActRow),
      mappedIntActA row = mappedIntActB row →
      addIntActRow methods types mi g row = g) ∧
    (∀ (uniprot : String → Option String) (g : Net) (row : STRINGRow),
      uniprot row.protein1 = uniprot row.protein2 →
      addSTRINGRow uniprot g row = g) ∧
    (∀ (evs : List EvidenceRow) (g : Net), NoSelfLoop g →
      NoSelfLoop (evs.foldl processEvidence g)) := by
  refine ⟨?_, ?_, ?_, ?_⟩
  · intro uniprot experimental_system g row heq
    unfold addBioGRIDRow
    cases hA : uniprot row.interactor_a with
    | none => rfl
    | some a =>
      rw [hA] at heq
      rw [← heq]
      dsimp only
      rw [if_neg]
      intro hcond
      exact hcond.1 rfl
  · intro methods types mi g row heq
    unfold addIntActRow
    cases hA : mappedIntActA row with
    | none => rfl
    | some a =>
      rw [hA] at heq
      rw [← heq]
      dsimp only
      by_cases hAn : a ∉ g.nodes
      · rw [if_pos hAn]
      · rw [if_neg hAn, if_neg hAn, if_pos rfl]
  · intro uniprot g row heq
    unfold addSTRINGRow
    cases hA : uniprot row.protein1 with
    | none => rfl
    | some a =>
      rw [hA] at heq
      rw [← heq]
      dsimp only
      rw [if_neg]
      intro hcond
      exact hcond.1 rfl
  · intro evs
    induction evs with
    | nil => intro g hg; exact hg
    | cons e rest ih =>
      intro g hg
      rw [List.foldl_cons]
      exact ih (processEvidence g e) (noSelfLoop_processEvidence g e hg)

/-- C5 witness: a concrete self-loop row is rejected and a concrete
two-row stream leaves a self-loop-free network. -/
theorem no_self_loops_witness :
    mappedIntActA ⟨some "A", none, some "A", none, true, true, true, true, some 1⟩ =
      mappedIntActB ⟨some "A", none, some "A", none, true, true, true, true, some 1⟩ ∧
    addIntActRow [] [] 0 ⟨["A", "B"], []⟩
      ⟨some "A", none, some "A", none, true, true, true, true, some 1⟩ =
      ⟨["A", "B"], []⟩ ∧
    NoSelfLoop (⟨["A", "B"], []⟩ : Net) ∧
    NoSelfLoop ([EvidenceRow.intact [] [] 0
        ⟨some "A", none, some "B", none, true, true, true, true, some 1⟩].foldl
      processEvidence ⟨["A", "B"], []⟩) := by
  refine ⟨rfl, ?_, ?_, ?_⟩
  · exact no_self_loops.2.1 [] [] 0 ⟨["A", "B"], []⟩
      ⟨some "A", none, some "A", none, true, true, true, true, some 1⟩ rfl
  · intro e he; cases he
  · exact no_self_loops.2.2.2
      [EvidenceRow.intact [] [] 0
        ⟨some "A", none, some "B", none, true, true, true, true, some 1⟩]
      ⟨["A", "B"], []⟩ (fun e he => by cases he)

end PPI
